import Mathlib

/-!
Verification development for the Divergence-driven-ZO repository
(`large_models/trainer.py`).

The embedding models the zeroth-order (MeZO) estimator of `OurTrainer`
(`zo_perturb_parameters`, `zo_step`, `zo_update`), the trust-region
projection machinery of `DiZO` (`_project_ratio`, `apply_constraints`,
`reverse_constraints`, `perturb_gamma`, `zo_forward`), the inner
adaptation loop `dizo_trainer.dizo_zo_iters`, and the NaN/Inf loss
filter of `_inner_training_loop`.

Tensors are lists of rows of rationals (exact arithmetic); the torch
global generator is an explicit `Gen` state, reset by `manual_seed` and
advanced by every normal draw, so that seed-determinism facts are real
statements about the state threading and not tautologies.
-/

namespace ZOTrainer

/-- A tensor is a list of rows of rationals (2-D view; a vector is a
single-row tensor). -/
abbrev Tensor := List (List ℚ)

/-- Shape of a tensor: the list of its row lengths. -/
def tshape (t : Tensor) : List Nat := t.map List.length

/-- Number of elements of a tensor. -/
def numelN (t : Tensor) : Nat := (tshape t).sum

/-- Elementwise binary operation on two tensors (torch broadcasting is
not modelled; operands always have equal shapes where used). -/
def tMap2 (f : ℚ → ℚ → ℚ) (a b : Tensor) : Tensor :=
  List.zipWith (List.zipWith f) a b

/-- Elementwise difference `a - b`. -/
def tSub (a b : Tensor) : Tensor := tMap2 (fun x y => x - y) a b

/-- Elementwise sum `a + b`. -/
def tAdd (a b : Tensor) : Tensor := tMap2 (fun x y => x + y) a b

/-- Sum of squares of all entries (`torch.norm(t)` squared). -/
def sumSq (t : Tensor) : ℚ := (t.map (fun row => (row.map (fun x => x * x)).sum)).sum

/-- Model of `torch.norm` (Frobenius / L2): exact on perfect squares. -/
def l2norm (t : Tensor) : ℚ := Rat.sqrt (sumSq t)

/-- Per-row L1 sums: `torch.sum(torch.abs(t), dim=(1..), keepdim=True)`. -/
def rowL1s (t : Tensor) : List ℚ := t.map (fun row => (row.map (fun x => |x|)).sum)

/-- State of the torch global random generator: the seed installed by the
last `torch.manual_seed` call together with the number of scalars drawn
since then. -/
structure Gen where
  seed : Nat
  pos : Nat
  deriving DecidableEq, Repr

/-- Model of `torch.manual_seed`. -/
def mkGen (s : Nat) : Gen := ⟨s, 0⟩

/-- One scalar from the seeded normal stream: a concrete pure function of
the installed seed and the draw position (the actual Gaussian values are
irrelevant to every claim; only determinism in `(seed, pos)` matters). -/
def gaussSample (seed pos : Nat) : ℚ := (((seed + 2 * pos + 3) % 7 : Nat) : ℚ) - 3

/-- Draw `n` scalars from the stream, advancing the generator. -/
def drawFlat (g : Gen) (n : Nat) : List ℚ × Gen :=
  ((List.range n).map (fun i => gaussSample g.seed (g.pos + i)), ⟨g.seed, g.pos + n⟩)

/-- Reassemble a flat list of scalars into rows of the given lengths. -/
def chunks : List Nat → List ℚ → Tensor
  | [], _ => []
  | n :: ns, xs => xs.take n :: chunks ns (xs.drop n)

/-- Model of `torch.normal(mean=0, std=1, size=param.data.size(), ...)`:
a fresh normal tensor of the same shape, consuming the global stream. -/
def drawNormalLike (g : Gen) (t : Tensor) : Tensor × Gen :=
  (chunks (tshape t) (drawFlat g (numelN t)).1, (drawFlat g (numelN t)).2)

/-- Named parameter list of the trainer (`self.named_parameters_to_optim`). -/
abbrev ParamList := List (String × Tensor)

/-- Shapes of a parameter list, in enumeration order. -/
def pshapes (ps : ParamList) : List (List Nat) := ps.map (fun p => tshape p.2)

/-- The loop body of `zo_perturb_parameters`: draw a fresh `z` per
parameter and add `scaling_factor * z * eps` in place. -/
def perturbGo (eps scaling : ℚ) : Gen → ParamList → ParamList × Gen
  | g, [] => ([], g)
  | g, (n, p) :: rest =>
    let dz := drawNormalLike g p
    let pr := perturbGo eps scaling dz.2 rest
    ((n, tMap2 (fun x zv => x + scaling * zv * eps) p dz.1) :: pr.1, pr.2)

/-- The `z` tensors that the loop of `zo_perturb_parameters` draws, in
order, starting from generator state `g`. -/
def zsGo : Gen → ParamList → List Tensor
  | _, [] => []
  | g, (_, p) :: rest => (drawNormalLike g p).1 :: zsGo (drawNormalLike g p).2 rest

/-- The per-parameter noise of one zeroth-order step: the `z` sequence
regenerated from the stored seed (`torch.manual_seed` then one normal
draw per parameter). -/
def zsOf (seed : Nat) (ps : ParamList) : List Tensor := zsGo (mkGen seed) ps

/-- Trainer state for the zeroth-order estimator. `evalLog` records the
parameter snapshot at each forward evaluation (`zo_forward` call). -/
structure ZOState where
  gen : Gen
  params : ParamList
  zoRandomSeed : Nat
  projectedGrad : ℚ
  evalLog : List ParamList
  deriving DecidableEq

/-- Model of `OurTrainer.zo_perturb_parameters(random_seed, scaling_factor)`:
reseeds the global generator with the given seed and perturbs every
parameter in place by `scaling_factor * z * eps`. -/
def zoPerturbParameters (eps scaling : ℚ) (seed : Nat) (st : ZOState) : ZOState :=
  { st with gen := (perturbGo eps scaling (mkGen seed) st.params).2,
            params := (perturbGo eps scaling (mkGen seed) st.params).1 }

/-- Model of `OurTrainer.zo_forward`: an oracle loss evaluated on the
current parameters under no-grad eval mode, recorded in the log. -/
def zoForwardEval (L : ParamList → ℚ) (st : ZOState) : ℚ × ZOState :=
  (L st.params, { st with evalLog := st.evalLog ++ [st.params] })

/-- Model of `OurTrainer.zo_step(model, inputs)`. The sampled seed is an
input (the code takes it from `np.random.randint`). Returns `none` when
the `gradient_accumulation_steps == 1` assertion fails; the state then
reflects everything executed before the assertion. -/
def zoStep (eps : ℚ) (gradAccumSteps : Nat) (seed : Nat) (L : ParamList → ℚ)
    (st : ZOState) : Option ℚ × ZOState :=
  let st1 := zoPerturbParameters eps 1 seed { st with zoRandomSeed := seed }
  let ev1 := zoForwardEval L st1
  let st2 := zoPerturbParameters eps (-2) seed ev1.2
  let ev2 := zoForwardEval L st2
  let st3 := { ev2.2 with projectedGrad := (ev1.1 - ev2.1) / (2 * eps) }
  if gradAccumSteps = 1 then
    (some ev1.1, zoPerturbParameters eps 1 seed st3)
  else
    (none, st3)

/-- The net parameter position after applying a single regenerated
perturbation of scaling `c`: `theta + c * z * eps` per entry, `z` drawn
from the stream reseeded with `seed`. -/
def zoShift (eps c : ℚ) (seed : Nat) (ps : ParamList) : ParamList :=
  (perturbGo eps c (mkGen seed) ps).1

/-- An ASCII substring test used to model Python's `pat in name`:
does `pat` occur at the head of `s`? -/
def startsChars : List Char → List Char → Bool
  | [], _ => true
  | _ :: _, [] => false
  | a :: as, b :: bs => a = b && startsChars as bs

/-- Does `pat` occur anywhere inside `s`? -/
def hasSubChars (pat : List Char) : List Char → Bool
  | [] => pat.isEmpty
  | b :: bs => startsChars pat (b :: bs) || hasSubChars pat bs

/-- Python's `pat in name` on strings. -/
def strContains (name pat : String) : Bool := hasSubChars pat.toList name.toList

/-- The name-pattern test of `zo_update`: parameters whose name contains
`bias`, `layer_norm` or `layernorm` skip weight decay. -/
def biasOrNorm (name : String) : Bool :=
  strContains name "bias" || strContains name "layer_norm" || strContains name "layernorm"

/-- The loop body of `zo_update`: redraw `z` per parameter from the
reseeded generator and apply the SGD-style update with name-pattern
weight-decay exclusion. -/
def zoUpdateGo (lr wd grad : ℚ) : Gen → ParamList → ParamList × Gen
  | g, [] => ([], g)
  | g, (n, p) :: rest =>
    let dz := drawNormalLike g p
    let p' :=
      if ¬ biasOrNorm n then
        tMap2 (fun x zv => x - lr * (grad * zv + wd * x)) p dz.1
      else
        tMap2 (fun x zv => x - lr * (grad * zv)) p dz.1
    let pr := zoUpdateGo lr wd grad dz.2 rest
    ((n, p') :: pr.1, pr.2)

/-- Model of `OurTrainer.zo_update(model)`: reseed with the stored step
seed and update every parameter in place (the periodic DiZO invocation
and the scheduler step that follow in the code do not touch this loop). -/
def zoUpdate (lr wd : ℚ) (st : ZOState) : ZOState :=
  { st with gen := (zoUpdateGo lr wd st.projectedGrad (mkGen st.zoRandomSeed) st.params).2,
            params := (zoUpdateGo lr wd st.projectedGrad (mkGen st.zoRandomSeed) st.params).1 }

/-! ## DiZO: trust-region projection -/

/-- A named model parameter with its `requires_grad` flag. -/
structure NamedParam where
  name : String
  data : Tensor
  requiresGrad : Bool
  deriving DecidableEq

/-- A model is its ordered list of named parameters. -/
abbrev Model := List NamedParam

/-- The projection ratio computed by `DiZO._project_ratio`: a scalar for
the `l2` norm mode (a 0-dim tensor in the code), a per-row column vector
for the MARS mode. -/
inductive Ratio where
  | scalar (c : ℚ)
  | perRow (cs : List ℚ)
  deriving DecidableEq

/-- Broadcast multiplication `t * ratio` (elementwise, or rowwise for a
per-row ratio). -/
def ratioMul : Ratio → Tensor → Tensor
  | .scalar c, t => t.map (fun row => row.map (fun x => x * c))
  | .perRow cs, t => List.zipWith (fun c row => row.map (fun x => x * c)) cs t

/-- Broadcast division `t / ratio`. -/
def ratioDivApp : Ratio → Tensor → Tensor
  | .scalar c, t => t.map (fun row => row.map (fun x => x / c))
  | .perRow cs, t => List.zipWith (fun c row => row.map (fun x => x / c)) cs t

/-- A projection ratio with no zero component (division by it is then
exact in the reverse pass). -/
def ratioNZ : Ratio → Prop
  | .scalar c => c ≠ 0
  | .perRow cs => ∀ c ∈ cs, c ≠ 0

/-- The numerical-stability constant `1e-8` of `_project_ratio`. -/
def epsC : ℚ := 1 / 100000000

/-- Model of `DiZO._project_ratio(new, anchor, constraint_iterator)` with
the constraint value already popped from the iterator: `l2` mode takes a
single Frobenius norm, otherwise per-row L1 sums are used. -/
def projectRatio (normMode : String) (c : ℚ) (newT anchorT : Tensor) : Ratio :=
  let t := tSub newT anchorT
  if strContains normMode "l2" then .scalar (c / (l2norm t + epsC))
  else .perRow ((rowL1s t).map (fun n => c / (n + epsC)))

/-- State of a `DiZO` module: norm mode, exclusion list, the learnable
radii (`self.constraints`), the `init` flag, the alpha cache and the
include list rebuilt by each `apply_constraints` call. -/
structure DiZOState where
  normMode : String
  excludeList : List String
  constraints : List ℚ
  init : Bool
  alpha : List (String × Ratio)
  includeList : List String
  deriving DecidableEq

/-- Loop of `apply_constraints` over `zip(new.named_parameters(),
pre_trained.parameters())`, threading the constraint iterator: returns
the alpha cache, the include list and the updated parameters. Every
visited parameter gets `requires_grad = False` before the exclusion
test. -/
def applyGo (normMode : String) (excl : List String) :
    List ℚ → List (NamedParam × NamedParam) →
    List (String × Ratio) × List String × List NamedParam
  | _, [] => ([], [], [])
  | cs, (np, ap) :: rest =>
    if np.name ∈ excl then
      let r := applyGo normMode excl cs rest
      (r.1, r.2.1, { np with requiresGrad := false } :: r.2.2)
    else
      let ratio := projectRatio normMode (cs.headD 0) np.data ap.data
      let r := applyGo normMode excl cs.tail rest
      ((np.name, ratio) :: r.1, np.name :: r.2.1,
        { np with data := tAdd (ratioMul ratio (tSub np.data ap.data)) ap.data,
                  requiresGrad := false } :: r.2.2)

/-- Model of `DiZO.apply_constraints(new, pre_trained, iterator)`: resets
the alpha cache and include list, then projects every included parameter
to `anchor + ratio * (new - anchor)` (the `apply`/`see` flags do not
change the stored values). Parameters beyond the zip length are left
untouched. -/
def applyConstraints (d : DiZOState) (newM anchorM : Model) : DiZOState × Model :=
  let r := applyGo d.normMode d.excludeList d.constraints (newM.zip anchorM)
  ({ d with alpha := r.1, includeList := r.2.1 },
    r.2.2 ++ newM.drop (newM.zip anchorM).length)

/-- Loop of `reverse_constraints`: every visited parameter gets
`requires_grad = False`; included parameters are restored through the
cached ratio, a missing cache entry being the Python `KeyError`. -/
def revGo (excl : List String) (al : List (String × Ratio)) :
    List (NamedParam × NamedParam) → Option (List NamedParam)
  | [] => some []
  | (np, ap) :: rest =>
    if np.name ∈ excl then
      (revGo excl al rest).map (fun ps => { np with requiresGrad := false } :: ps)
    else
      match al.lookup np.name with
      | none => none
      | some r =>
        let newData := tAdd (ratioDivApp r (tSub np.data ap.data)) ap.data
        (revGo excl al rest).map
          (fun ps => { np with data := newData, requiresGrad := false } :: ps)

/-- Model of `DiZO.reverse_constraints(new, pre_trained)`: undoes the
most recent `apply_constraints` through the cached alpha ratios. -/
def reverseConstraints (d : DiZOState) (newM anchorM : Model) : Option Model :=
  let pairs := newM.zip anchorM
  (revGo d.excludeList d.alpha pairs).map (fun ps => ps ++ newM.drop pairs.length)

/-- `torch.clip(x, lo, hi)`. -/
def clipQ (lo hi x : ℚ) : ℚ := min (max x lo) hi

/-- Loop of `DiZO.perturb_gamma` drawing fresh noise: for the `i`-th
radius, `z_i = ts[i] * normal(0,1)` from the global generator, and the
radius moves by `delta * z_i * 0.2`. Returns the `z` values, the new
radii and the advanced generator. -/
def perturbGammaFresh (delta : ℚ) : List ℚ → List ℚ → Gen → List ℚ × List ℚ × Gen
  | [], _, g => ([], [], g)
  | _ :: _, [], g => ([], [], g)
  | γ :: gs, t :: ts, g =>
    let z := t * gaussSample g.seed g.pos
    let pr := perturbGammaFresh delta gs ts ⟨g.seed, g.pos + 1⟩
    (z :: pr.1, (γ + delta * z * (2 / 10)) :: pr.2.1, pr.2.2)

/-- `DiZO.perturb_gamma` with cached noise (`zs` supplied). -/
def perturbGammaCached (delta : ℚ) (gammas zs : List ℚ) : List ℚ :=
  List.zipWith (fun γ z => γ + delta * z * (2 / 10)) gammas zs

/-- The per-parameter baselines `ts` of `DiZO.zo_forward`: the plain
`torch.norm` (always L2, whatever the norm mode) of `current - anchor`
over the non-excluded zipped parameters. -/
def tsOf (excl : List String) (newM anchorM : Model) : List ℚ :=
  ((newM.zip anchorM).filter (fun pr => pr.1.name ∉ excl)).map
    (fun pr => l2norm (tSub pr.1.data pr.2.data))

/-- The final radius adaptation of `DiZO.zo_forward`:
`gamma = clip(gamma - 10 * grad * z, (1-tau) * ts, (1+tau) * ts)` with
`tau = 0.2`. -/
def gammaAdapt (grad : ℚ) : List ℚ → List ℚ → List ℚ → List ℚ
  | γ :: gs, z :: zs, t :: ts =>
    clipQ ((8 / 10) * t) ((12 / 10) * t) (γ - 10 * grad * z) :: gammaAdapt grad gs zs ts
  | _, _, _ => []

/-- The `if self.init` branch of `DiZO.zo_forward`: assign `gamma.data =
ts[i]` for every radius (enumeration over the radii, indexing `ts`). -/
def dizoInit (d : DiZOState) (ts : List ℚ) : DiZOState :=
  if d.init then { d with constraints := List.zipWith (fun t _ => t) ts d.constraints } else d

/-- Model of `DiZO.zo_forward(new, pre_trained, x)` in the non-apply
branch: compute `ts`, initialize the radii from them when `init` is set,
perturb the radii by `+z`, project / evaluate / reverse, perturb by
`-2z`, project / evaluate / reverse, restore with `+z`, and clip the
adapted radii into `[(1-tau) ts, (1+tau) ts]`. `L` is the loss oracle
for `forward_wrap_with_option_len`; `none` propagates a failed reverse
lookup. -/
def zoForwardZO (d : DiZOState) (newM anchorM : Model) (L : Model → ℚ) (g : Gen) :
    Option (DiZOState × Model × Gen) :=
  let ts := tsOf d.excludeList newM anchorM
  let d0 := dizoInit d ts
  let pz := perturbGammaFresh 1 d0.constraints ts g
  let am1 := applyConstraints { d0 with constraints := pz.2.1 } newM anchorM
  let loss1 := L am1.2
  match reverseConstraints am1.1 am1.2 anchorM with
  | none => none
  | some m2 =>
    let am2 := applyConstraints
      { am1.1 with constraints := perturbGammaCached (-2) am1.1.constraints pz.1 } m2 anchorM
    let loss2 := L am2.2
    match reverseConstraints am2.1 am2.2 anchorM with
    | none => none
    | some m4 =>
      let grad := (loss1 - loss2) / (4 / 10)
      some ({ am2.1 with constraints :=
                gammaAdapt grad (perturbGammaCached 1 am2.1.constraints pz.1) pz.1 ts },
            m4, pz.2.2)

/-- The committing branch `DiZO.zo_forward(..., apply=True)`. -/
def zoForwardApply (d : DiZOState) (newM anchorM : Model) : DiZOState × Model :=
  applyConstraints d newM anchorM

/-- The inner `while` loop of `dizo_trainer.dizo_zo_iters`: each
iteration runs `zo_forward` on the next batch's loss oracle and clears
the `init` flag. -/
def dizoLoop (L : Nat → Model → ℚ) : Nat → Nat → DiZOState → Model → Model → Gen →
    Option (DiZOState × Model × Gen)
  | 0, _, d, m, _, g => some (d, m, g)
  | k + 1, i, d, m, anchorM, g =>
    match zoForwardZO d m anchorM (L i) g with
    | none => none
    | some (d', m', g') => dizoLoop L k (i + 1) { d' with init := false } m' anchorM g'

/-- Model of `dizo_trainer.dizo_zo_iters(model, base_model)` in the
non-apply branch: set `init = True`, run `max_iters` inner iterations,
then commit with one `zo_forward(..., apply=True)` against the frozen
anchor. -/
def dizoZoIters (L : Nat → Model → ℚ) (maxIters : Nat) (d : DiZOState)
    (m anchorM : Model) (g : Gen) : Option (DiZOState × Model × Gen) :=
  match dizoLoop L maxIters 0 { d with init := true } m anchorM g with
  | none => none
  | some (d', m', g') =>
    let (d'', m'') := zoForwardApply d' m' anchorM
    some (d'', m'', g')

/-! ## NaN/Inf loss filter of the outer training loop -/

/-- A float-valued loss: finite (exact rational), NaN, or infinite. -/
inductive Fl where
  | fin (q : ℚ)
  | nan
  | inf
  deriving DecidableEq

/-- `torch.isnan(x) or torch.isinf(x)`. -/
def Fl.isNanInf : Fl → Bool
  | .fin _ => false
  | .nan => true
  | .inf => true

/-- Addition on float-valued losses; abnormal values absorb. -/
def Fl.add : Fl → Fl → Fl
  | .fin a, .fin b => .fin (a + b)
  | .nan, _ => .nan
  | _, .nan => .nan
  | .inf, _ => .inf
  | _, .inf => .inf

/-- The loss accumulation of `_inner_training_loop`: when the NaN/Inf
filter is on and the step loss is abnormal, add the running average
`tr_loss / (1 + global_step - last_logged)` instead of the step loss. -/
def lossAccum (filterOn : Bool) (trLoss trLossStep : Fl) (globalStep lastLogged : Nat) : Fl :=
  if filterOn && trLossStep.isNanInf then
    match trLoss with
    | .fin q => .fin (q + q / (1 + (globalStep : ℚ) - (lastLogged : ℚ)))
    | x => x
  else
    trLoss.add trLossStep

/-! ## Shape and draw lemmas -/

theorem tshape_chunks : ∀ (ns : List Nat) (xs : List ℚ), xs.length = ns.sum →
    tshape (chunks ns xs) = ns := by
  intro ns
  induction ns with
  | nil => intro xs _; simp [chunks, tshape]
  | cons n ns ih =>
    intro xs hx
    simp only [List.sum_cons] at hx
    simp only [chunks, tshape, List.map_cons, List.cons.injEq]
    constructor
    · simp [List.length_take]; omega
    · have := ih (xs.drop n) (by simp [List.length_drop]; omega)
      simpa [tshape] using this

theorem tshape_drawNormalLike (g : Gen) (t : Tensor) :
    tshape (drawNormalLike g t).1 = tshape t := by
  simp only [drawNormalLike]
  exact tshape_chunks _ _ (by simp [drawFlat, numelN])

theorem drawNormalLike_congr (g : Gen) {t1 t2 : Tensor} (h : tshape t1 = tshape t2) :
    drawNormalLike g t1 = drawNormalLike g t2 := by
  simp [drawNormalLike, numelN, h]

theorem zipWith_left_of_eqLen {f : ℚ → ℚ → ℚ} (hf : ∀ x y, f x y = x) :
    ∀ (r s : List ℚ), r.length = s.length → List.zipWith f r s = r := by
  intro r
  induction r with
  | nil => intro s _; simp
  | cons a r ih =>
    intro s hs
    cases s with
    | nil => simp at hs
    | cons b s => simp_all [List.zipWith]

theorem zipWith_zipWith_right {f g h : ℚ → ℚ → ℚ} (hc : ∀ x y, f (g x y) y = h x y) :
    ∀ (r s : List ℚ), r.length = s.length →
    List.zipWith f (List.zipWith g r s) s = List.zipWith h r s := by
  intro r
  induction r with
  | nil => intro s _; simp
  | cons a r ih =>
    intro s hs
    cases s with
    | nil => simp at hs
    | cons b s => simp_all [List.zipWith]

theorem tshape_tMap2 (f : ℚ → ℚ → ℚ) : ∀ {a b : Tensor}, tshape a = tshape b →
    tshape (tMap2 f a b) = tshape a := by
  intro a
  induction a with
  | nil => intro b _; simp [tMap2, tshape]
  | cons r a ih =>
    intro b hb
    cases b with
    | nil => simp [tshape] at hb
    | cons s b =>
      simp only [tshape, List.map_cons, List.cons.injEq] at hb
      simp only [tMap2, List.zipWith, tshape, List.map_cons, List.cons.injEq]
      exact ⟨by simp [hb.1], by simpa [tMap2, tshape] using ih hb.2⟩

theorem tMap2_left {f : ℚ → ℚ → ℚ} (hf : ∀ x y, f x y = x) :
    ∀ {a b : Tensor}, tshape a = tshape b → tMap2 f a b = a := by
  intro a
  induction a with
  | nil => intro b _; simp [tMap2]
  | cons r a ih =>
    intro b hb
    cases b with
    | nil => simp [tshape] at hb
    | cons s b =>
      simp only [tshape, List.map_cons, List.cons.injEq] at hb
      simp only [tMap2, List.zipWith, List.cons.injEq]
      exact ⟨zipWith_left_of_eqLen hf r s hb.1, by simpa [tMap2] using ih hb.2⟩

theorem tMap2_tMap2 {f g h : ℚ → ℚ → ℚ} (hc : ∀ x y, f (g x y) y = h x y) :
    ∀ {a b : Tensor}, tshape a = tshape b →
    tMap2 f (tMap2 g a b) b = tMap2 h a b := by
  intro a
  induction a with
  | nil => intro b _; simp [tMap2]
  | cons r a ih =>
    intro b hb
    cases b with
    | nil => simp [tMap2]
    | cons s b =>
      simp only [tshape, List.map_cons, List.cons.injEq] at hb
      simp only [tMap2, List.zipWith, List.cons.injEq]
      exact ⟨zipWith_zipWith_right hc r s hb.1, by simpa [tMap2] using ih hb.2⟩

/-! ## Perturbation algebra of the MeZO step -/

theorem perturbGo_comp (eps c1 c2 : ℚ) : ∀ (ps : ParamList) (g : Gen),
    perturbGo eps c2 g (perturbGo eps c1 g ps).1 = perturbGo eps (c1 + c2) g ps := by
  intro ps
  induction ps with
  | nil => intro g; simp [perturbGo]
  | cons hd tl ih =>
    intro g
    obtain ⟨n, p⟩ := hd
    have hz : tshape (drawNormalLike g p).1 = tshape p := tshape_drawNormalLike g p
    have hsh : tshape (tMap2 (fun x zv => x + c1 * zv * eps) p (drawNormalLike g p).1)
        = tshape p := tshape_tMap2 _ hz.symm
    simp only [perturbGo]
    rw [drawNormalLike_congr g hsh]
    rw [@tMap2_tMap2 (fun x zv => x + c2 * zv * eps) (fun x zv => x + c1 * zv * eps)
      (fun x zv => x + (c1 + c2) * zv * eps) (fun x y => by ring) p (drawNormalLike g p).1
      hz.symm]
    rw [ih (drawNormalLike g p).2]

theorem perturbGo_zero_fst (eps : ℚ) : ∀ (ps : ParamList) (g : Gen),
    (perturbGo eps 0 g ps).1 = ps := by
  intro ps
  induction ps with
  | nil => intro g; simp [perturbGo]
  | cons hd tl ih =>
    intro g
    obtain ⟨n, p⟩ := hd
    have hz : tshape (drawNormalLike g p).1 = tshape p := tshape_drawNormalLike g p
    simp only [perturbGo]
    rw [tMap2_left (fun x y => by ring) hz.symm]
    rw [ih (drawNormalLike g p).2]

theorem perturbGo_fst_zip (eps c : ℚ) : ∀ (ps : ParamList) (g : Gen),
    (perturbGo eps c g ps).1 =
      List.zipWith (fun pr z => (pr.1, tMap2 (fun x zv => x + c * zv * eps) pr.2 z))
        ps (zsGo g ps) := by
  intro ps
  induction ps with
  | nil => intro g; simp [perturbGo, zsGo]
  | cons hd tl ih =>
    intro g
    obtain ⟨n, p⟩ := hd
    simp only [perturbGo, zsGo, List.zipWith]
    exact congrArg _ (ih _)

theorem zsGo_congr : ∀ (ps1 ps2 : ParamList) (g : Gen), pshapes ps1 = pshapes ps2 →
    zsGo g ps1 = zsGo g ps2 := by
  intro ps1
  induction ps1 with
  | nil =>
    intro ps2 g h
    cases ps2 with
    | nil => rfl
    | cons b l => simp [pshapes] at h
  | cons hd tl ih =>
    intro ps2 g h
    cases ps2 with
    | nil => simp [pshapes] at h
    | cons hd2 tl2 =>
      simp only [pshapes, List.map_cons, List.cons.injEq] at h
      have hd_eq : drawNormalLike g hd.2 = drawNormalLike g hd2.2 :=
        drawNormalLike_congr g h.1
      simp only [zsGo, hd_eq]
      exact congrArg _ (ih tl2 _ (by simpa [pshapes] using h.2))

theorem zoUpdateGo_zip (lr wd grad : ℚ) : ∀ (ps : ParamList) (g : Gen),
    (zoUpdateGo lr wd grad g ps).1 =
      List.zipWith (fun pr z => (pr.1,
        if biasOrNorm pr.1 = true
        then tMap2 (fun x zv => x - lr * (grad * zv)) pr.2 z
        else tMap2 (fun x zv => x - lr * (grad * zv + wd * x)) pr.2 z))
        ps (zsGo g ps) := by
  intro ps
  induction ps with
  | nil => intro g; simp [zoUpdateGo, zsGo]
  | cons hd tl ih =>
    intro g
    obtain ⟨n, p⟩ := hd
    simp only [zoUpdateGo, zsGo, List.zipWith]
    cases hb : biasOrNorm n <;> simp [hb] <;> exact ih _

/-- Full characterization of a successful `zo_step` (the assertion on
`gradient_accumulation_steps = 1` passes): loss, restored parameters,
stored seed, projected gradient and forward-evaluation log. -/
theorem zoStep_eq (eps : ℚ) (seed : Nat) (L : ParamList → ℚ) (st : ZOState) :
    zoStep eps 1 seed L st =
      (some (L (zoShift eps 1 seed st.params)),
       { gen := (perturbGo eps 0 (mkGen seed) st.params).2,
         params := st.params,
         zoRandomSeed := seed,
         projectedGrad :=
           (L (zoShift eps 1 seed st.params) - L (zoShift eps (-1) seed st.params)) / (2 * eps),
         evalLog := st.evalLog ++ [zoShift eps 1 seed st.params, zoShift eps (-1) seed st.params] }) := by
  have h2 : perturbGo eps (-2) (mkGen seed) (perturbGo eps 1 (mkGen seed) st.params).1
      = perturbGo eps (-1) (mkGen seed) st.params := by
    rw [perturbGo_comp]; norm_num
  have h3 : perturbGo eps 1 (mkGen seed) (perturbGo eps (-1) (mkGen seed) st.params).1
      = perturbGo eps 0 (mkGen seed) st.params := by
    rw [perturbGo_comp]; norm_num
  simp only [zoStep, zoPerturbParameters, zoForwardEval, zoShift, h2, h3,
    perturbGo_zero_fst, if_pos, List.append_assoc, List.singleton_append]

/-- C1: a call to `zo_step(model, inputs)` perturbs by `+eps z`,
evaluates `L1`, perturbs by `-2 eps z` (net `theta - eps z`), evaluates
`L2`, restores the parameters with a final `+eps z`, stores
`g = (L1 - L2) / (2 eps)`, returns `L1`, and performs exactly the two
forward evaluations at `theta + eps z` and `theta - eps z`. -/
theorem zo_step_two_point_estimate (eps : ℚ) (ga seed : Nat)
    (L : ParamList → ℚ) (st : ZOState) (hga : ga = 1) :
    (zoStep eps ga seed L st).1 = some (L (zoShift eps 1 seed st.params)) ∧
    (zoStep eps ga seed L st).2.params = st.params ∧
    (zoStep eps ga seed L st).2.projectedGrad =
      (L (zoShift eps 1 seed st.params) - L (zoShift eps (-1) seed st.params)) / (2 * eps) ∧
    (zoStep eps ga seed L st).2.evalLog =
      st.evalLog ++ [zoShift eps 1 seed st.params, zoShift eps (-1) seed st.params] := by
  subst hga
  rw [zoStep_eq]
  exact ⟨rfl, rfl, rfl, rfl⟩

/-- Witness for C1 at a concrete input. -/
theorem zo_step_two_point_estimate_witness :
    (1 : Nat) = 1 ∧
    ((zoStep 1 1 3 (fun ps => sumSq ((ps.map Prod.snd).headD []))
        ⟨mkGen 5, [("w", [[1, 2]])], 0, 0, []⟩).1 =
      some ((fun ps => sumSq ((ps.map Prod.snd).headD []))
        (zoShift 1 1 3 [("w", [[1, 2]])])) ∧
    (zoStep 1 1 3 (fun ps => sumSq ((ps.map Prod.snd).headD []))
        ⟨mkGen 5, [("w", [[1, 2]])], 0, 0, []⟩).2.params = [("w", [[1, 2]])] ∧
    (zoStep 1 1 3 (fun ps => sumSq ((ps.map Prod.snd).headD []))
        ⟨mkGen 5, [("w", [[1, 2]])], 0, 0, []⟩).2.projectedGrad =
      ((fun ps => sumSq ((ps.map Prod.snd).headD [])) (zoShift 1 1 3 [("w", [[1, 2]])]) -
       (fun ps => sumSq ((ps.map Prod.snd).headD [])) (zoShift 1 (-1) 3 [("w", [[1, 2]])])) / (2 * 1) ∧
    (zoStep 1 1 3 (fun ps => sumSq ((ps.map Prod.snd).headD []))
        ⟨mkGen 5, [("w", [[1, 2]])], 0, 0, []⟩).2.evalLog =
      [] ++ [zoShift 1 1 3 [("w", [[1, 2]])], zoShift 1 (-1) 3 [("w", [[1, 2]])]]) :=
  ⟨rfl, zo_step_two_point_estimate 1 1 3 _ _ rfl⟩

/-- C3: the per-step perturbation draw is deterministic in the seed:
the `z` sequence regenerated for a seed depends only on the seed and
the parameter shapes in enumeration order (not on values or on the
prior generator state), and both `zo_perturb_parameters` and the redraw
in `zo_update` consume exactly that sequence `zsOf seed params`. -/
theorem perturbation_draw_deterministic :
    (∀ (seed : Nat) (ps1 ps2 : ParamList), pshapes ps1 = pshapes ps2 →
      zsOf seed ps1 = zsOf seed ps2) ∧
    (∀ (eps c : ℚ) (seed : Nat) (st : ZOState),
      (zoPerturbParameters eps c seed st).params =
        List.zipWith (fun pr z => (pr.1, tMap2 (fun x zv => x + c * zv * eps) pr.2 z))
          st.params (zsOf seed st.params)) ∧
    (∀ (lr wd : ℚ) (st : ZOState),
      (zoUpdate lr wd st).params =
        List.zipWith (fun pr z => (pr.1,
          if biasOrNorm pr.1 = true
          then tMap2 (fun x zv => x - lr * (st.projectedGrad * zv)) pr.2 z
          else tMap2 (fun x zv => x - lr * (st.projectedGrad * zv + wd * x)) pr.2 z))
          st.params (zsOf st.zoRandomSeed st.params)) := by
  refine ⟨fun seed ps1 ps2 h => zsGo_congr ps1 ps2 (mkGen seed) h, ?_, ?_⟩
  · intro eps c seed st
    simp only [zoPerturbParameters, zsOf]
    exact perturbGo_fst_zip eps c st.params (mkGen seed)
  · intro lr wd st
    simp only [zoUpdate, zsOf]
    exact zoUpdateGo_zip lr wd st.projectedGrad st.params (mkGen st.zoRandomSeed)

/-- Witness for C3 at concrete inputs: two parameter lists with equal
shapes but different names, values and incoming generator states yield
bit-identical regenerated noise. -/
theorem perturbation_draw_deterministic_witness :
    (pshapes [("a", [[1, 2], [3]])] = pshapes [("b", [[7, 9], [11]])]) ∧
    zsOf 4 [("a", [[1, 2], [3]])] = zsOf 4 [("b", [[7, 9], [11]])] :=
  ⟨by decide, perturbation_draw_deterministic.1 4 _ _ (by decide)⟩

/-- C2: after `zo_step` stored seed `s` and projected gradient `g`,
`zo_update` reseeds with the same `s`, redraws the identical per
parameter `z`, and updates `theta := theta - lr * (g * z + wd * theta)`
for every parameter whose name avoids the bias/normalization patterns,
and `theta := theta - lr * g * z` for the matching ones, classified by
the name-pattern test only. -/
theorem zo_update_rule (eps lr wd : ℚ) (ga seed : Nat) (L : ParamList → ℚ)
    (st : ZOState) (hga : ga = 1) :
    (zoUpdate lr wd (zoStep eps ga seed L st).2).params =
      List.zipWith (fun pr z => (pr.1,
        if biasOrNorm pr.1 = true
        then tMap2 (fun x zv => x -
          lr * (((L (zoShift eps 1 seed st.params) - L (zoShift eps (-1) seed st.params))
            / (2 * eps)) * zv)) pr.2 z
        else tMap2 (fun x zv => x -
          lr * (((L (zoShift eps 1 seed st.params) - L (zoShift eps (-1) seed st.params))
            / (2 * eps)) * zv + wd * x)) pr.2 z))
        st.params (zsOf seed st.params) := by
  subst hga
  rw [zoStep_eq]
  simp only [zoUpdate, zsOf]
  exact zoUpdateGo_zip lr wd _ st.params (mkGen seed)

/-- Witness for C2 at a concrete input with one weight-bearing and one
bias parameter. -/
theorem zo_update_rule_witness :
    (1 : Nat) = 1 ∧
    (zoUpdate (1 / 2) (1 / 10)
        (zoStep 1 1 6 (fun ps => sumSq ((ps.map Prod.snd).headD []))
          ⟨mkGen 9, [("w.weight", [[2, 3]]), ("w.bias", [[4]])], 0, 0, []⟩).2).params =
      List.zipWith (fun pr z => (pr.1,
        if biasOrNorm pr.1 = true
        then tMap2 (fun x zv => x -
          (1 / 2) * ((((fun ps => sumSq ((ps.map Prod.snd).headD []))
              (zoShift 1 1 6 [("w.weight", [[2, 3]]), ("w.bias", [[4]])]) -
            (fun ps => sumSq ((ps.map Prod.snd).headD []))
              (zoShift 1 (-1) 6 [("w.weight", [[2, 3]]), ("w.bias", [[4]])]))
            / (2 * 1)) * zv)) pr.2 z
        else tMap2 (fun x zv => x -
          (1 / 2) * ((((fun ps => sumSq ((ps.map Prod.snd).headD []))
              (zoShift 1 1 6 [("w.weight", [[2, 3]]), ("w.bias", [[4]])]) -
            (fun ps => sumSq ((ps.map Prod.snd).headD []))
              (zoShift 1 (-1) 6 [("w.weight", [[2, 3]]), ("w.bias", [[4]])]))
            / (2 * 1)) * zv + (1 / 10) * x)) pr.2 z))
        [("w.weight", [[2, 3]]), ("w.bias", [[4]])]
        (zsOf 6 [("w.weight", [[2, 3]]), ("w.bias", [[4]])]) :=
  ⟨rfl, zo_update_rule 1 (1 / 2) (1 / 10) 1 6 _ _ rfl⟩

/-- C9 counterexample: with `gradient_accumulation_steps = 2` the
zeroth-order machinery is NOT stopped before any perturbation or
evaluation: the first `zo_step` call performs both perturbations and
both forward evaluations, and only then hits the assertion, leaving
the parameters displaced at `theta - eps z`. -/
theorem zo_step_accumulation_guard_cex :
    (zoStep 1 2 3 (fun ps => sumSq ((ps.map Prod.snd).headD []))
        ⟨mkGen 5, [("w", [[1, 2]])], 0, 0, []⟩).1 = none ∧
    ((zoStep 1 2 3 (fun ps => sumSq ((ps.map Prod.snd).headD []))
        ⟨mkGen 5, [("w", [[1, 2]])], 0, 0, []⟩).2.evalLog.length = 2 ∧
     (zoStep 1 2 3 (fun ps => sumSq ((ps.map Prod.snd).headD []))
        ⟨mkGen 5, [("w", [[1, 2]])], 0, 0, []⟩).2.params ≠ [("w", [[1, 2]])]) := by
  refine ⟨?_, ?_, ?_⟩ <;>
    norm_num [zoStep, zoPerturbParameters, zoForwardEval, perturbGo, drawNormalLike, drawFlat,
      numelN, tshape, chunks, tMap2, gaussSample, mkGen, List.range_succ, sumSq,
      List.zipWith]

/-- C9 amended: gradient accumulation beyond 1 micro-batch with the
zeroth-order estimator is a fatal assertion, but it fires inside
`zo_step`, after the two perturbations and forward evaluations and
before the restoring perturbation — not before training starts — so the
step aborts with the parameters left at `theta - eps z`. -/
theorem zo_step_accumulation_guard (eps : ℚ) (ga seed : Nat)
    (L : ParamList → ℚ) (st : ZOState) (hga : ga ≠ 1) :
    zoStep eps ga seed L st =
      (none,
       { gen := (perturbGo eps (-1) (mkGen seed) st.params).2,
         params := zoShift eps (-1) seed st.params,
         zoRandomSeed := seed,
         projectedGrad :=
           (L (zoShift eps 1 seed st.params) - L (zoShift eps (-1) seed st.params)) / (2 * eps),
         evalLog := st.evalLog ++ [zoShift eps 1 seed st.params, zoShift eps (-1) seed st.params] }) := by
  have h2 : perturbGo eps (-2) (mkGen seed) (perturbGo eps 1 (mkGen seed) st.params).1
      = perturbGo eps (-1) (mkGen seed) st.params := by
    rw [perturbGo_comp]; norm_num
  simp only [zoStep, zoPerturbParameters, zoForwardEval, zoShift, h2,
    if_neg hga, List.append_assoc, List.singleton_append]

/-- Witness for the amended C9 at a concrete invalid configuration. -/
theorem zo_step_accumulation_guard_witness :
    (2 : Nat) ≠ 1 ∧
    zoStep 1 2 7 (fun ps => sumSq ((ps.map Prod.snd).headD []))
        ⟨mkGen 5, [("w", [[1, 2]])], 0, 0, []⟩ =
      (none,
       { gen := (perturbGo 1 (-1) (mkGen 7) [("w", [[1, 2]])]).2,
         params := zoShift 1 (-1) 7 [("w", [[1, 2]])],
         zoRandomSeed := 7,
         projectedGrad :=
           ((fun ps => sumSq ((ps.map Prod.snd).headD [])) (zoShift 1 1 7 [("w", [[1, 2]])]) -
            (fun ps => sumSq ((ps.map Prod.snd).headD [])) (zoShift 1 (-1) 7 [("w", [[1, 2]])]))
            / (2 * 1),
         evalLog := [] ++ [zoShift 1 1 7 [("w", [[1, 2]])], zoShift 1 (-1) 7 [("w", [[1, 2]])]] }) :=
  ⟨by decide, zo_step_accumulation_guard 1 2 7 _ _ (by decide)⟩

/-- C7: with the NaN/Inf filter enabled, an abnormal step loss never
reaches the accumulator: `tr_loss` is incremented by the running average
`tr_loss / (1 + global_step - last_logged)` instead, and the accumulated
loss stays finite. The hypothesis `last_logged <= global_step` (always
true in the loop) marks the regime where the denominator is positive, so
the exact rational division here agrees with the float division in the
code. -/
theorem nan_inf_filter_fallback (q : ℚ) (stepLoss : Fl) (gs ll : Nat)
    (habn : stepLoss.isNanInf = true) (hll : ll ≤ gs) :
    lossAccum true (.fin q) stepLoss gs ll =
      .fin (q + q / (1 + (gs : ℚ) - (ll : ℚ))) ∧
    (lossAccum true (.fin q) stepLoss gs ll).isNanInf = false := by
  cases stepLoss with
  | fin q' => simp [Fl.isNanInf] at habn
  | nan => simp [lossAccum, Fl.isNanInf]
  | inf => simp [lossAccum, Fl.isNanInf]

/-- Witness for C7: a NaN step loss at `global_step = 10`,
`last_logged = 8`, accumulated loss `3`. -/
theorem nan_inf_filter_fallback_witness :
    Fl.isNanInf .nan = true ∧ 8 ≤ 10 ∧
    (lossAccum true (.fin 3) .nan 10 8 =
      .fin (3 + 3 / (1 + (10 : ℚ) - (8 : ℚ))) ∧
    (lossAccum true (.fin 3) .nan 10 8).isNanInf = false) :=
  ⟨rfl, by decide, nan_inf_filter_fallback 3 .nan 10 8 rfl (by decide)⟩

/-! ## Frame effect of apply/reverse on requires_grad -/

theorem forall₂_mem_right {α β : Type} {R : α → β → Prop} :
    ∀ {l₁ : List α} {l₂ : List β}, List.Forall₂ R l₁ l₂ →
    ∀ b ∈ l₂, ∃ a ∈ l₁, R a b := by
  intro l₁ l₂ h
  induction h with
  | nil => intro b hb; simp at hb
  | cons hab _ ih =>
    intro b hb
    rcases List.mem_cons.mp hb with hb | hb
    · subst hb; exact ⟨_, List.mem_cons_self _ _, hab⟩
    · obtain ⟨a, ha, har⟩ := ih b hb
      exact ⟨a, List.mem_cons_of_mem _ ha, har⟩

theorem applyGo_forall₂ (nm : String) (excl : List String) :
    ∀ (cs : List ℚ) (pairs : List (NamedParam × NamedParam)),
    List.Forall₂ (fun (pr : NamedParam × NamedParam) (q : NamedParam) =>
        q.name = pr.1.name ∧ q.requiresGrad = false ∧
        (pr.1.name ∈ excl → q.data = pr.1.data))
      pairs (applyGo nm excl cs pairs).2.2 := by
  intro cs pairs
  induction pairs generalizing cs with
  | nil => simp [applyGo]
  | cons pr rest ih =>
    by_cases hex : pr.1.name ∈ excl
    · simp only [applyGo, if_pos hex]
      exact List.Forall₂.cons ⟨rfl, rfl, fun _ => rfl⟩ (ih cs)
    · simp only [applyGo, if_neg hex]
      exact List.Forall₂.cons ⟨rfl, rfl, fun h => absurd h hex⟩ (ih cs.tail)

theorem revGo_forall₂ (excl : List String) (al : List (String × Ratio)) :
    ∀ (pairs : List (NamedParam × NamedParam)) (res : List NamedParam),
    revGo excl al pairs = some res →
    List.Forall₂ (fun (pr : NamedParam × NamedParam) (q : NamedParam) =>
        q.name = pr.1.name ∧ q.requiresGrad = false ∧
        (pr.1.name ∈ excl → q.data = pr.1.data))
      pairs res := by
  intro pairs
  induction pairs with
  | nil => intro res h; simp only [revGo, Option.some.injEq] at h; subst h; exact .nil
  | cons pr rest ih =>
    intro res h
    by_cases hex : pr.1.name ∈ excl
    · simp only [revGo, if_pos hex, Option.map_eq_some'] at h
      obtain ⟨res', hres', rfl⟩ := h
      exact List.Forall₂.cons ⟨rfl, rfl, fun _ => rfl⟩ (ih res' hres')
    · simp only [revGo, if_neg hex] at h
      cases hl : al.lookup pr.1.name with
      | none => rw [hl] at h; exact absurd h (by simp)
      | some r =>
        rw [hl] at h
        simp only [Option.map_eq_some'] at h
        obtain ⟨res', hres', rfl⟩ := h
        exact List.Forall₂.cons ⟨rfl, rfl, fun hh => absurd hh hex⟩ (ih res' hres')

/-- C10: every `apply_constraints` and every successful
`reverse_constraints` clears `requires_grad` on every named parameter of
the candidate (the flag assignment precedes the exclusion test), while
excluded parameters keep their tensor values. -/
theorem projection_clears_requires_grad (d : DiZOState) (newM anchorM : Model)
    (hlen : newM.length = anchorM.length) :
    (∀ p ∈ (applyConstraints d newM anchorM).2, p.requiresGrad = false) ∧
    List.Forall₂ (fun (p q : NamedParam) => p.name ∈ d.excludeList → q.data = p.data)
      newM (applyConstraints d newM anchorM).2 ∧
    (∀ res, reverseConstraints d newM anchorM = some res →
      (∀ p ∈ res, p.requiresGrad = false) ∧
      List.Forall₂ (fun (p q : NamedParam) => p.name ∈ d.excludeList → q.data = p.data)
        newM res) := by
  have hzlen : (newM.zip anchorM).length = newM.length := by
    rw [List.length_zip, hlen, Nat.min_self]
  have hfst : (newM.zip anchorM).map Prod.fst = newM :=
    List.map_fst_zip _ _ (le_of_eq hlen)
  have hdrop : newM.drop (newM.zip anchorM).length = [] := by
    rw [hzlen, List.drop_length]
  constructor
  · intro p hp
    simp only [applyConstraints, hdrop, List.append_nil] at hp
    have h2 := applyGo_forall₂ d.normMode d.excludeList d.constraints (newM.zip anchorM)
    obtain ⟨pr, _, hpr⟩ := forall₂_mem_right h2 p hp
    exact hpr.2.1
  constructor
  · simp only [applyConstraints, hdrop, List.append_nil]
    have h2 := applyGo_forall₂ d.normMode d.excludeList d.constraints (newM.zip anchorM)
    have h3 := h2.imp (fun a b hpq h => hpq.2.2 h)
    conv_lhs => rw [← hfst]
    exact List.forall₂_map_left_iff.mpr h3
  · intro res hres
    simp only [reverseConstraints, hdrop, Option.map_eq_some'] at hres
    obtain ⟨res', hres', rfl⟩ := hres
    have h2 := revGo_forall₂ d.excludeList d.alpha (newM.zip anchorM) res' hres'
    simp only [List.append_nil]
    constructor
    · intro p hp
      obtain ⟨pr, _, hpr⟩ := forall₂_mem_right h2 p hp
      exact hpr.2.1
    · have h3 := h2.imp (fun a b hpq h => hpq.2.2 h)
      conv_lhs => rw [← hfst]
      exact List.forall₂_map_left_iff.mpr h3

/-- Witness for C10: a candidate with one excluded and one included
parameter, both initially trainable. -/
theorem projection_clears_requires_grad_witness :
    ([⟨"emb", [[1, 2]], true⟩, ⟨"w", [[3, 4]], true⟩] : Model).length =
      ([⟨"emb", [[0, 0]], false⟩, ⟨"w", [[0, 0]], false⟩] : Model).length ∧
    ((∀ p ∈ (applyConstraints ⟨"l2", ["emb"], [1], true, [], []⟩
        [⟨"emb", [[1, 2]], true⟩, ⟨"w", [[3, 4]], true⟩]
        [⟨"emb", [[0, 0]], false⟩, ⟨"w", [[0, 0]], false⟩]).2, p.requiresGrad = false) ∧
    List.Forall₂ (fun (p q : NamedParam) =>
        p.name ∈ (⟨"l2", ["emb"], [1], true, [], []⟩ : DiZOState).excludeList → q.data = p.data)
      [⟨"emb", [[1, 2]], true⟩, ⟨"w", [[3, 4]], true⟩]
      (applyConstraints ⟨"l2", ["emb"], [1], true, [], []⟩
        [⟨"emb", [[1, 2]], true⟩, ⟨"w", [[3, 4]], true⟩]
        [⟨"emb", [[0, 0]], false⟩, ⟨"w", [[0, 0]], false⟩]).2 ∧
    (∀ res, reverseConstraints ⟨"l2", ["emb"], [1], true, [], []⟩
        [⟨"emb", [[1, 2]], true⟩, ⟨"w", [[3, 4]], true⟩]
        [⟨"emb", [[0, 0]], false⟩, ⟨"w", [[0, 0]], false⟩] = some res →
      (∀ p ∈ res, p.requiresGrad = false) ∧
      List.Forall₂ (fun (p q : NamedParam) =>
          p.name ∈ (⟨"l2", ["emb"], [1], true, [], []⟩ : DiZOState).excludeList → q.data = p.data)
        [⟨"emb", [[1, 2]], true⟩, ⟨"w", [[3, 4]], true⟩] res)) :=
  ⟨rfl, projection_clears_requires_grad ⟨"l2", ["emb"], [1], true, [], []⟩ _ _ rfl⟩

/-! ## Projection round-trip algebra -/

theorem tSub_tAdd_cancel {u a : Tensor} (h : tshape u = tshape a) :
    tSub (tAdd u a) a = u := by
  unfold tSub tAdd
  rw [@tMap2_tMap2 (fun x y => x - y) (fun x y => x + y) (fun x y => x) (fun x y => by ring)
    u a h]
  exact tMap2_left (fun x y => rfl) h

theorem tAdd_tSub_cancel {p a : Tensor} (h : tshape p = tshape a) :
    tAdd (tSub p a) a = p := by
  unfold tSub tAdd
  rw [@tMap2_tMap2 (fun x y => x + y) (fun x y => x - y) (fun x y => x) (fun x y => by ring)
    p a h]
  exact tMap2_left (fun x y => rfl) h

theorem map_mul_div_cancel {c : ℚ} (hc : c ≠ 0) : ∀ (row : List ℚ),
    (row.map (fun x => x * c)).map (fun x => x / c) = row := by
  intro row
  induction row with
  | nil => simp
  | cons x row ih => simp [mul_div_cancel_right₀ _ hc, ih]

theorem scalar_div_mul_cancel {c : ℚ} (hc : c ≠ 0) : ∀ (t : Tensor),
    ratioDivApp (.scalar c) (ratioMul (.scalar c) t) = t := by
  intro t
  induction t with
  | nil => simp [ratioDivApp, ratioMul]
  | cons row t ih =>
    simp only [ratioDivApp, ratioMul, List.map_cons, List.cons.injEq] at ih ⊢
    exact ⟨map_mul_div_cancel hc row, ih⟩

theorem perRow_div_mul_cancel : ∀ (cs : List ℚ) (t : Tensor), (∀ c ∈ cs, c ≠ 0) →
    cs.length = t.length →
    ratioDivApp (.perRow cs) (ratioMul (.perRow cs) t) = t := by
  intro cs
  induction cs with
  | nil =>
    intro t _ hl
    cases t with
    | nil => rfl
    | cons r t => simp at hl
  | cons c cs ih =>
    intro t hnz hl
    cases t with
    | nil => simp at hl
    | cons row t =>
      simp only [ratioDivApp, ratioMul, List.zipWith, List.cons.injEq, List.length_cons] at *
      refine ⟨map_mul_div_cancel (hnz c (by simp)) row, ?_⟩
      exact ih t (fun x hx => hnz x (List.mem_cons_of_mem _ hx)) (by omega)

theorem tshape_scalarMul (c : ℚ) : ∀ (t : Tensor),
    tshape (ratioMul (.scalar c) t) = tshape t := by
  intro t
  induction t with
  | nil => rfl
  | cons row t ih => simp only [ratioMul, tshape, List.map_cons, List.length_map] at *; rw [ih]

theorem tshape_perRowMul : ∀ (cs : List ℚ) (t : Tensor), cs.length = t.length →
    tshape (ratioMul (.perRow cs) t) = tshape t := by
  intro cs
  induction cs with
  | nil =>
    intro t hl
    cases t with
    | nil => rfl
    | cons r t => simp at hl
  | cons c cs ih =>
    intro t hl
    cases t with
    | nil => simp at hl
    | cons row t =>
      simp only [ratioMul, tshape, List.zipWith, List.map_cons, List.length_map,
        List.length_cons] at *
      rw [ih t (by omega)]

theorem length_rowL1s (t : Tensor) : (rowL1s t).length = t.length := by
  simp [rowL1s]

theorem tshape_ratioMul_proj (nm : String) (c : ℚ) (p a : Tensor) :
    tshape (ratioMul (projectRatio nm c p a) (tSub p a)) = tshape (tSub p a) := by
  by_cases h : strContains nm "l2" = true
  · simp only [projectRatio, if_pos h]
    exact tshape_scalarMul _ _
  · simp only [projectRatio, if_neg h]
    exact tshape_perRowMul _ _ (by simp [length_rowL1s])

theorem ratio_cancel_proj (nm : String) (c : ℚ) (p a : Tensor)
    (hnz : ratioNZ (projectRatio nm c p a)) :
    ratioDivApp (projectRatio nm c p a) (ratioMul (projectRatio nm c p a) (tSub p a))
      = tSub p a := by
  by_cases h : strContains nm "l2" = true
  · simp only [projectRatio, if_pos h] at hnz ⊢
    exact scalar_div_mul_cancel hnz _
  · simp only [projectRatio, if_neg h] at hnz ⊢
    exact perRow_div_mul_cancel _ _ hnz (by simp [length_rowL1s])

theorem tshape_tSub {p a : Tensor} (h : tshape p = tshape a) :
    tshape (tSub p a) = tshape a := by
  unfold tSub
  rw [tshape_tMap2 _ h]; exact h

/-- The core elementwise round trip: reversing the projected parameter
through the same ratio restores the original value exactly. -/
theorem project_roundtrip (nm : String) (c : ℚ) (p a : Tensor)
    (hsh : tshape p = tshape a)
    (hnz : ratioNZ (projectRatio nm c p a)) :
    tAdd (ratioDivApp (projectRatio nm c p a)
      (tSub (tAdd (ratioMul (projectRatio nm c p a) (tSub p a)) a) a)) a = p := by
  have h1 : tshape (ratioMul (projectRatio nm c p a) (tSub p a)) = tshape a := by
    rw [tshape_ratioMul_proj, tshape_tSub hsh]
  rw [tSub_tAdd_cancel h1, ratio_cancel_proj nm c p a hnz, tAdd_tSub_cancel hsh]

theorem applyGo_keys_sublist (nm : String) (excl : List String) :
    ∀ (cs : List ℚ) (pairs : List (NamedParam × NamedParam)),
    List.Sublist ((applyGo nm excl cs pairs).1.map Prod.fst)
      (pairs.map (fun pr => pr.1.name)) := by
  intro cs pairs
  induction pairs generalizing cs with
  | nil => simp [applyGo]
  | cons pr rest ih =>
    by_cases hex : pr.1.name ∈ excl
    · simp only [applyGo, if_pos hex, List.map_cons]
      exact (ih cs).cons _
    · simp only [applyGo, if_neg hex, List.map_cons]
      exact (ih cs.tail).cons₂ _

theorem lookup_self_of_nodup {β : Type} : ∀ (l : List (String × β)),
    (l.map Prod.fst).Nodup → ∀ e ∈ l, l.lookup e.1 = some e.2 := by
  intro l
  induction l with
  | nil => intro _ e he; simp at he
  | cons hd tl ih =>
    intro hnd e he
    obtain ⟨n, b⟩ := hd
    simp only [List.map_cons, List.nodup_cons] at hnd
    rcases List.mem_cons.mp he with he | he
    · subst he
      simp [List.lookup]
    · have hne : e.1 ≠ n := by
        intro hcontra
        exact hnd.1 (hcontra ▸ List.mem_map_of_mem Prod.fst he)
      simp only [List.lookup, beq_eq_false_iff_ne.mpr hne]
      exact ih hnd.2 e he

/-- Inner round-trip induction: reversing the output of an `apply` pass
through a cache that answers every produced `(name, ratio)` entry, with
all ratios nonzero, restores every parameter's data. -/
theorem revGo_applyGo (nm : String) (excl : List String) :
    ∀ (pairs : List (NamedParam × NamedParam)) (cs : List ℚ) (al : List (String × Ratio)),
    (∀ pr ∈ pairs, tshape pr.1.data = tshape pr.2.data) →
    (∀ e ∈ (applyGo nm excl cs pairs).1, al.lookup e.1 = some e.2 ∧ ratioNZ e.2) →
    ∃ res, revGo excl al ((applyGo nm excl cs pairs).2.2.zip (pairs.map Prod.snd)) = some res ∧
      res.map (fun p => p.data) = pairs.map (fun pr => pr.1.data) ∧
      res.map (fun p => p.name) = pairs.map (fun pr => pr.1.name) := by
  intro pairs
  induction pairs with
  | nil =>
    intro cs al _ _
    exact ⟨[], by simp [applyGo, revGo], by simp [applyGo], by simp [applyGo]⟩
  | cons pr rest ih =>
    intro cs al hsh hcache
    obtain ⟨np, ap⟩ := pr
    by_cases hex : np.name ∈ excl
    · simp only [applyGo, if_pos hex] at hcache ⊢
      obtain ⟨res, hres, hdata, hname⟩ := ih cs al
        (fun q hq => hsh q (List.mem_cons_of_mem _ hq)) hcache
      refine ⟨{ np with requiresGrad := false } :: res, ?_, ?_, ?_⟩
      · simp only [List.zip] at hres
        simp only [List.map_cons, List.zip, List.zipWith, revGo, if_pos hex, hres,
          Option.map_some']
      · simpa using hdata
      · simpa using hname
    · simp only [applyGo, if_neg hex] at hcache ⊢
      have hshhd : tshape np.data = tshape ap.data := hsh (np, ap) (by simp)
      have hhead := hcache (np.name, projectRatio nm (cs.headD 0) np.data ap.data)
        (List.mem_cons_self _ _)
      obtain ⟨res, hres, hdata, hname⟩ := ih cs.tail al
        (fun q hq => hsh q (List.mem_cons_of_mem _ hq))
        (fun e he => hcache e (List.mem_cons_of_mem _ he))
      refine ⟨{ np with requiresGrad := false } :: res, ?_, ?_, ?_⟩
      · simp only [List.zip] at hres
        simp only [List.map_cons, List.zip, List.zipWith, revGo, if_neg hex, hhead.1, hres,
          Option.map_some']
        rw [project_roundtrip nm (cs.headD 0) np.data ap.data hshhd hhead.2]
      · simpa using hdata
      · simpa using hname

/-- C4: `reverse_constraints` called right after `apply_constraints`,
with the alpha cache that this apply produced and every cached ratio
nonzero, restores every parameter of the candidate to its value before
the apply (included ones through `anchor + (candidate - anchor)/alpha`,
excluded ones untouched), exactly in the rational-arithmetic model. -/
theorem projection_reverse_roundtrip (d : DiZOState) (newM anchorM : Model)
    (hlen : newM.length = anchorM.length)
    (hsh : ∀ pr ∈ newM.zip anchorM, tshape pr.1.data = tshape pr.2.data)
    (hnodup : (newM.map (fun p => p.name)).Nodup)
    (hnz : ∀ e ∈ (applyConstraints d newM anchorM).1.alpha, ratioNZ e.2) :
    ∃ res, reverseConstraints (applyConstraints d newM anchorM).1
        (applyConstraints d newM anchorM).2 anchorM = some res ∧
      res.map (fun p => p.data) = newM.map (fun p => p.data) ∧
      res.map (fun p => p.name) = newM.map (fun p => p.name) := by
  have hfst : (newM.zip anchorM).map Prod.fst = newM :=
    List.map_fst_zip _ _ (le_of_eq hlen)
  have hsnd : (newM.zip anchorM).map Prod.snd = anchorM :=
    List.map_snd_zip _ _ (ge_of_eq hlen)
  have hpn : (newM.zip anchorM).map (fun pr => pr.1.name) = newM.map (fun p => p.name) := by
    have h := congrArg (List.map (fun p : NamedParam => p.name)) hfst
    rw [List.map_map] at h
    exact h
  have hnodup' : ((newM.zip anchorM).map (fun pr => pr.1.name)).Nodup := by
    rw [hpn]; exact hnodup
  have hkeys : (((applyGo d.normMode d.excludeList d.constraints (newM.zip anchorM)).1.map
      Prod.fst)).Nodup :=
    hnodup'.sublist (applyGo_keys_sublist d.normMode d.excludeList d.constraints _)
  have hcache : ∀ e ∈ (applyGo d.normMode d.excludeList d.constraints (newM.zip anchorM)).1,
      ((applyGo d.normMode d.excludeList d.constraints (newM.zip anchorM)).1).lookup e.1 =
        some e.2 ∧ ratioNZ e.2 := by
    intro e he
    refine ⟨lookup_self_of_nodup _ hkeys e he, hnz e ?_⟩
    simpa [applyConstraints] using he
  obtain ⟨res, hres, hdata, hname⟩ :=
    revGo_applyGo d.normMode d.excludeList (newM.zip anchorM) d.constraints
      (applyGo d.normMode d.excludeList d.constraints (newM.zip anchorM)).1 hsh hcache
  have hlenap : (applyGo d.normMode d.excludeList d.constraints (newM.zip anchorM)).2.2.length
      = anchorM.length := by
    have := (applyGo_forall₂ d.normMode d.excludeList d.constraints (newM.zip anchorM)).length_eq
    rw [← this, List.length_zip, hlen, Nat.min_self]
  have hdropA : newM.drop (newM.zip anchorM).length = [] := by
    rw [List.length_zip, hlen, Nat.min_self, ← hlen, List.drop_length]
  refine ⟨res, ?_, ?_, ?_⟩
  · simp only [applyConstraints, reverseConstraints, hdropA, List.append_nil]
    rw [hsnd] at hres
    rw [hres, Option.map_some', Option.some.injEq]
    have hzip2 : ((applyGo d.normMode d.excludeList d.constraints (newM.zip anchorM)).2.2.zip
        anchorM).length =
        (applyGo d.normMode d.excludeList d.constraints (newM.zip anchorM)).2.2.length := by
      rw [List.length_zip, hlenap, Nat.min_self]
    rw [hzip2, List.drop_length, List.append_nil]
  · have h2 := congrArg (List.map (fun p : NamedParam => p.data)) hfst
    rw [List.map_map] at h2
    rw [hdata]; exact h2
  · rw [hname, hpn]

/-- Witness for C4: MARS norm mode, one excluded and one included
parameter; the cached per-row ratio is nonzero and the round trip
restores the candidate. -/
theorem projection_reverse_roundtrip_witness :
    (([⟨"emb", [[1, 2]], true⟩, ⟨"w", [[3, 4]], true⟩] : Model).length =
      ([⟨"emb", [[0, 0]], true⟩, ⟨"w", [[1, 1]], true⟩] : Model).length) ∧
    (∀ pr ∈ ([⟨"emb", [[1, 2]], true⟩, ⟨"w", [[3, 4]], true⟩] : Model).zip
        ([⟨"emb", [[0, 0]], true⟩, ⟨"w", [[1, 1]], true⟩] : Model),
      tshape pr.1.data = tshape pr.2.data) ∧
    (([⟨"emb", [[1, 2]], true⟩, ⟨"w", [[3, 4]], true⟩] : Model).map
        (fun p => p.name)).Nodup ∧
    (∀ e ∈ (applyConstraints ⟨"mars", ["emb"], [2], true, [], []⟩
        [⟨"emb", [[1, 2]], true⟩, ⟨"w", [[3, 4]], true⟩]
        [⟨"emb", [[0, 0]], true⟩, ⟨"w", [[1, 1]], true⟩]).1.alpha, ratioNZ e.2) ∧
    (∃ res, reverseConstraints
        (applyConstraints ⟨"mars", ["emb"], [2], true, [], []⟩
          [⟨"emb", [[1, 2]], true⟩, ⟨"w", [[3, 4]], true⟩]
          [⟨"emb", [[0, 0]], true⟩, ⟨"w", [[1, 1]], true⟩]).1
        (applyConstraints ⟨"mars", ["emb"], [2], true, [], []⟩
          [⟨"emb", [[1, 2]], true⟩, ⟨"w", [[3, 4]], true⟩]
          [⟨"emb", [[0, 0]], true⟩, ⟨"w", [[1, 1]], true⟩]).2
        [⟨"emb", [[0, 0]], true⟩, ⟨"w", [[1, 1]], true⟩] = some res ∧
      res.map (fun p => p.data) =
        ([⟨"emb", [[1, 2]], true⟩, ⟨"w", [[3, 4]], true⟩] : Model).map (fun p => p.data) ∧
      res.map (fun p => p.name) =
        ([⟨"emb", [[1, 2]], true⟩, ⟨"w", [[3, 4]], true⟩] : Model).map (fun p => p.name)) := by
  have hnz : ∀ e ∈ (applyConstraints ⟨"mars", ["emb"], [2], true, [], []⟩
      [⟨"emb", [[1, 2]], true⟩, ⟨"w", [[3, 4]], true⟩]
      [⟨"emb", [[0, 0]], true⟩, ⟨"w", [[1, 1]], true⟩]).1.alpha, ratioNZ e.2 := by
    intro e he
    simp only [applyConstraints, applyGo, projectRatio, List.zip, List.zipWith,
      (by decide : strContains "mars" "l2" = false)] at he
    norm_num [rowL1s, tSub, tMap2, List.zipWith, epsC] at he
    rw [if_neg (by decide : ¬ ("w" : String) = "emb")] at he
    simp only [List.mem_singleton] at he
    subst he
    intro c hc
    simp only [List.mem_singleton] at hc
    subst hc
    norm_num
  exact ⟨rfl, by decide, by decide, hnz,
    projection_reverse_roundtrip ⟨"mars", ["emb"], [2], true, [], []⟩ _ _ rfl
      (by decide) (by decide) hnz⟩

/-! ## Projection exactness -/

theorem sumSq_row_mul (c : ℚ) : ∀ (row : List ℚ),
    ((row.map (fun x => x * c)).map (fun x => x * x)).sum =
      c * c * (row.map (fun x => x * x)).sum := by
  intro row
  induction row with
  | nil => simp
  | cons x row ih => simp only [List.map_cons, List.sum_cons, ih]; ring

theorem sumSq_scalarMul (c : ℚ) : ∀ (t : Tensor),
    sumSq (ratioMul (.scalar c) t) = c * c * sumSq t := by
  intro t
  induction t with
  | nil => simp [sumSq, ratioMul]
  | cons row t ih =>
    simp only [sumSq, ratioMul, List.map_cons, List.sum_cons] at ih ⊢
    rw [sumSq_row_mul, ih]; ring

theorem l2norm_scalarMul (c n : ℚ) (hc : 0 ≤ c) (hn : 0 ≤ n) (t : Tensor)
    (hsq : n * n = sumSq t) :
    l2norm (ratioMul (.scalar c) t) = c * n := by
  rw [l2norm, sumSq_scalarMul, ← hsq,
    show c * c * (n * n) = (c * n) * (c * n) from by ring, Rat.sqrt_eq,
    abs_of_nonneg (mul_nonneg hc hn)]

theorem rowL1_map_mul (c : ℚ) : ∀ (row : List ℚ),
    ((row.map (fun x => x * c)).map (fun x => |x|)).sum =
      |c| * (row.map (fun x => |x|)).sum := by
  intro row
  induction row with
  | nil => simp
  | cons x row ih => simp only [List.map_cons, List.sum_cons, ih, abs_mul]; ring

theorem rowL1_nonneg (row : List ℚ) : 0 ≤ (row.map (fun x => |x|)).sum := by
  refine List.sum_nonneg ?_
  intro x hx
  obtain ⟨y, _, rfl⟩ := List.mem_map.mp hx
  exact abs_nonneg y

theorem epsC_pos : (0 : ℚ) < epsC := by norm_num [epsC]

theorem mars_rows_rescale (r : ℚ) (hr : 0 ≤ r) : ∀ (t : Tensor),
    List.Forall₂ (fun (row : List ℚ) (m : ℚ) =>
        (row.map (fun x => |x|)).sum = r * m / (m + epsC))
      (ratioMul (.perRow ((rowL1s t).map (fun m => r / (m + epsC)))) t) (rowL1s t) := by
  intro t
  induction t with
  | nil => simp [ratioMul, rowL1s]
  | cons row t ih =>
    simp only [ratioMul, rowL1s, List.map_cons, List.zipWith] at ih ⊢
    refine List.Forall₂.cons ?_ ih
    rw [rowL1_map_mul]
    have hm : (0 : ℚ) ≤ (row.map (fun x => |x|)).sum := rowL1_nonneg row
    have hpos : (0 : ℚ) < (row.map (fun x => |x|)).sum + epsC := by
      have := epsC_pos; linarith
    rw [abs_of_nonneg (div_nonneg hr (le_of_lt hpos)), div_mul_eq_mul_div]

/-- C5: the projection is a hard rescale. In `l2` mode, with `n > 0` the
exact norm of the deviation, the ratio is `r / (n + 1e-8)`, the rescaled
deviation `alpha * delta` has norm `r * n / (n + 1e-8)`, which is at most
`r * 1e-8 / n` below the radius `r` (never above it); in MARS mode every
row's L1 deviation becomes `r * m / (m + 1e-8)` of its row norm `m`; and
on the concrete instance anchor `[0,0]`, current `[3,4]`, radius `1` the
projected value is `[3/(5+1e-8), 4/(5+1e-8)]`, within `1e-8` of
`[0.6, 0.8]` componentwise. -/
theorem projection_exactness (nm : String) (r : ℚ) (p a : Tensor)
    (hsh : tshape p = tshape a) (hr : 0 < r) :
    (∀ n : ℚ, 0 < n → n * n = sumSq (tSub p a) → strContains nm "l2" = true →
      projectRatio nm r p a = .scalar (r / (n + epsC)) ∧
      l2norm (tSub (tAdd (ratioMul (projectRatio nm r p a) (tSub p a)) a) a)
        = r * n / (n + epsC) ∧
      0 ≤ r - r * n / (n + epsC) ∧ r - r * n / (n + epsC) ≤ r * epsC / n) ∧
    (strContains nm "l2" = false →
      List.Forall₂ (fun (row : List ℚ) (m : ℚ) =>
          (row.map (fun x => |x|)).sum = r * m / (m + epsC))
        (tSub (tAdd (ratioMul (projectRatio nm r p a) (tSub p a)) a) a)
        (rowL1s (tSub p a))) ∧
    ((applyConstraints ⟨"l2", [], [1], true, [], []⟩
        [⟨"w", [[3, 4]], true⟩] [⟨"w", [[0, 0]], true⟩]).2.map (fun q => q.data)
      = [[[3 / (5 + epsC), 4 / (5 + epsC)]]] ∧
     3 / 5 - epsC ≤ 3 / (5 + epsC) ∧ 3 / (5 + epsC) ≤ 3 / 5 ∧
     4 / 5 - epsC ≤ 4 / (5 + epsC) ∧ 4 / (5 + epsC) ≤ 4 / 5) := by
  have hcancel : ∀ ratio : Ratio,
      tshape (ratioMul ratio (tSub p a)) = tshape (tSub p a) →
      tSub (tAdd (ratioMul ratio (tSub p a)) a) a = ratioMul ratio (tSub p a) := by
    intro ratio hshr
    exact tSub_tAdd_cancel (by rw [hshr, tshape_tSub hsh])
  refine ⟨?_, ?_, ?_⟩
  · intro n hn0 hn hl2
    have hnorm : l2norm (tSub p a) = n := by
      rw [l2norm, ← hn, Rat.sqrt_eq, abs_of_pos hn0]
    have hratio : projectRatio nm r p a = .scalar (r / (n + epsC)) := by
      simp only [projectRatio, if_pos hl2, hnorm]
    have hcpos : (0 : ℚ) ≤ r / (n + epsC) := by
      have := epsC_pos
      exact div_nonneg (le_of_lt hr) (by linarith)
    refine ⟨hratio, ?_, ?_, ?_⟩
    · rw [hratio, hcancel _ (tshape_scalarMul _ _),
        l2norm_scalarMul _ n hcpos (le_of_lt hn0) _ hn, div_mul_eq_mul_div]
    · have hne : (0 : ℚ) < n + epsC := by have := epsC_pos; linarith
      have : r - r * n / (n + epsC) = r * epsC / (n + epsC) := by
        field_simp; ring
      rw [this]
      exact div_nonneg (mul_nonneg (le_of_lt hr) (le_of_lt epsC_pos)) (le_of_lt hne)
    · have hne : (0 : ℚ) < n + epsC := by have := epsC_pos; linarith
      have : r - r * n / (n + epsC) = r * epsC / (n + epsC) := by
        field_simp; ring
      rw [this]
      gcongr
      · exact le_of_lt (mul_pos hr epsC_pos)
      · linarith [epsC_pos]
  · intro hmars
    have hratio : projectRatio nm r p a
        = .perRow ((rowL1s (tSub p a)).map (fun m => r / (m + epsC))) := by
      simp [projectRatio, hmars]
    have hlenr : ((rowL1s (tSub p a)).map (fun m => r / (m + epsC))).length
        = (tSub p a).length := by
      simp [length_rowL1s]
    rw [hratio, hcancel _ (tshape_perRowMul _ _ hlenr)]
    exact mars_rows_rescale r (le_of_lt hr) (tSub p a)
  · have hsq : sumSq (tSub [[(3 : ℚ), 4]] [[0, 0]]) = 5 * 5 := by
      norm_num [sumSq, tSub, tMap2, List.zipWith]
    have hnorm5 : l2norm (tSub [[(3 : ℚ), 4]] [[0, 0]]) = 5 := by
      rw [l2norm, hsq, Rat.sqrt_eq]; norm_num
    refine ⟨?_, by norm_num [epsC], by norm_num [epsC], by norm_num [epsC],
      by norm_num [epsC]⟩
    simp only [applyConstraints, applyGo, projectRatio,
      (by decide : strContains "l2" "l2" = true), if_pos, List.zip, List.zipWith,
      if_neg (by decide : ¬ ("w" : String) ∈ ([] : List String)), hnorm5]
    norm_num [ratioMul, tAdd, tSub, tMap2, List.zipWith, epsC]

/-- Witness for C5: the `l2` conjunct instantiated at the
anchor-`[0,0]`, current-`[3,4]`, radius-`1` scenario with `n = 5`. -/
theorem projection_exactness_witness :
    tshape [[(3 : ℚ), 4]] = tshape [[(0 : ℚ), 0]] ∧ (0 : ℚ) < 1 ∧
    (0 : ℚ) < 5 ∧ (5 : ℚ) * 5 = sumSq (tSub [[3, 4]] [[0, 0]]) ∧
    strContains "l2" "l2" = true ∧
    (projectRatio "l2" 1 [[3, 4]] [[0, 0]] = .scalar (1 / (5 + epsC)) ∧
     l2norm (tSub (tAdd (ratioMul (projectRatio "l2" 1 [[3, 4]] [[0, 0]])
         (tSub [[3, 4]] [[0, 0]])) [[0, 0]]) [[0, 0]]) = 1 * 5 / (5 + epsC) ∧
     0 ≤ 1 - 1 * 5 / (5 + epsC) ∧ 1 - 1 * 5 / (5 + epsC) ≤ 1 * epsC / 5) := by
  have hsq : (5 : ℚ) * 5 = sumSq (tSub [[3, 4]] [[0, 0]]) := by
    norm_num [sumSq, tSub, tMap2, List.zipWith]
  exact ⟨by decide, by norm_num, by norm_num, hsq, by decide,
    (projection_exactness "l2" 1 [[3, 4]] [[0, 0]] (by decide) (by norm_num)).1 5
      (by norm_num) hsq (by decide)⟩

/-! ## Radius bounding -/

theorem clipQ_mem {lo hi : ℚ} (x : ℚ) (h : lo ≤ hi) :
    lo ≤ clipQ lo hi x ∧ clipQ lo hi x ≤ hi := by
  unfold clipQ
  constructor
  · exact le_min (le_max_right x lo) h
  · exact min_le_right _ _

theorem gammaAdapt_bounds (grad : ℚ) : ∀ (gs zs ts : List ℚ),
    gs.length = ts.length → zs.length = ts.length → (∀ t ∈ ts, 0 ≤ t) →
    List.Forall₂ (fun γ t => (8 / 10) * t ≤ γ ∧ γ ≤ (12 / 10) * t)
      (gammaAdapt grad gs zs ts) ts := by
  intro gs
  induction gs with
  | nil =>
    intro zs ts h1 _ _
    cases ts with
    | nil => cases zs <;> exact .nil
    | cons t ts => simp at h1
  | cons γ gs ih =>
    intro zs ts h1 h2 hts
    cases ts with
    | nil => simp at h1
    | cons t ts =>
      cases zs with
      | nil => simp at h2
      | cons z zs =>
        simp only [gammaAdapt]
        have ht : (0 : ℚ) ≤ t := hts t (by simp)
        refine List.Forall₂.cons (clipQ_mem _ (by linarith)) ?_
        exact ih zs ts (by simpa using h1) (by simpa using h2)
          (fun x hx => hts x (List.mem_cons_of_mem _ hx))

theorem tsOf_nonneg (excl : List String) (newM anchorM : Model) :
    ∀ t ∈ tsOf excl newM anchorM, 0 ≤ t := by
  intro t ht
  obtain ⟨pr, _, rfl⟩ := List.mem_map.mp ht
  exact Rat.sqrt_nonneg _

theorem perturbGammaFresh_lengths (delta : ℚ) : ∀ (gs ts : List ℚ) (g : Gen),
    (perturbGammaFresh delta gs ts g).1.length = min gs.length ts.length ∧
    (perturbGammaFresh delta gs ts g).2.1.length = min gs.length ts.length := by
  intro gs
  induction gs with
  | nil => intro ts g; simp [perturbGammaFresh]
  | cons γ gs ih =>
    intro ts g
    cases ts with
    | nil => simp [perturbGammaFresh]
    | cons t ts =>
      simp only [perturbGammaFresh, List.length_cons]
      have := ih ts ⟨g.seed, g.pos + 1⟩
      omega

/-- C6: after every non-apply `DiZO.zo_forward` call (one zeroth-order
radius adaptation cycle), every radius lies in
`[(1 - tau) * r0, (1 + tau) * r0]` with `tau = 0.2`, `r0` the norm of
`current - anchor` captured for that parameter at the start of the call;
since every `run_zo` cycle ends with this update, the bound holds after
any number of cycles. -/
theorem radius_bounding (d : DiZOState) (newM anchorM : Model) (L : Model → ℚ)
    (g : Gen) (d' : DiZOState) (m' : Model) (g' : Gen)
    (hlen : d.constraints.length = (tsOf d.excludeList newM anchorM).length)
    (hrun : zoForwardZO d newM anchorM L g = some (d', m', g')) :
    List.Forall₂ (fun γ t => (8 / 10) * t ≤ γ ∧ γ ≤ (12 / 10) * t)
      d'.constraints (tsOf d.excludeList newM anchorM) := by
  have hacc : ∀ (x : DiZOState) (m a : Model),
      (applyConstraints x m a).1.constraints = x.constraints := fun _ _ _ => rfl
  have hc0 : (dizoInit d (tsOf d.excludeList newM anchorM)).constraints.length
      = (tsOf d.excludeList newM anchorM).length := by
    unfold dizoInit
    by_cases h : d.init <;> simp [h, List.length_zipWith, hlen]
  have hlens := perturbGammaFresh_lengths 1
    (dizoInit d (tsOf d.excludeList newM anchorM)).constraints
    (tsOf d.excludeList newM anchorM) g
  simp only [zoForwardZO] at hrun
  split at hrun
  · exact absurd hrun (by simp)
  next m2 hrev1 =>
    split at hrun
    · exact absurd hrun (by simp)
    next m4 hrev2 =>
      simp only [Option.some.injEq, Prod.mk.injEq] at hrun
      obtain ⟨hd', _, _⟩ := hrun
      rw [← hd']
      simp only [hacc]
      apply gammaAdapt_bounds
      · simp only [perturbGammaCached, List.length_zipWith]
        omega
      · omega
      · exact tsOf_nonneg _ _ _

/-- Witness for C6: a one-parameter MARS-mode cycle with constant loss;
the run succeeds and the adapted radius stays inside the band. -/
theorem radius_bounding_witness :
    (([1] : List ℚ).length =
      (tsOf [] [⟨"w", [[1]], true⟩] [⟨"w", [[0]], true⟩]).length) ∧
    zoForwardZO ⟨"mars", [], [1], false, [], []⟩ [⟨"w", [[1]], true⟩]
        [⟨"w", [[0]], true⟩] (fun _ => 0) (mkGen 0) =
      some (⟨"mars", [], [1], false, [("w", Ratio.perRow [100000000 / 100000001])], ["w"]⟩,
        [⟨"w", [[1]], false⟩], ⟨0, 1⟩) ∧
    List.Forall₂ (fun γ t => (8 / 10) * t ≤ γ ∧ γ ≤ (12 / 10) * t)
      (⟨"mars", [], [1], false, [("w", Ratio.perRow [100000000 / 100000001])], ["w"]⟩
        : DiZOState).constraints
      (tsOf ([] : List String) [⟨"w", [[1]], true⟩] [⟨"w", [[0]], true⟩]) := by
  have hrun : zoForwardZO ⟨"mars", [], [1], false, [], []⟩ [⟨"w", [[1]], true⟩]
      [⟨"w", [[0]], true⟩] (fun _ => 0) (mkGen 0) =
      some (⟨"mars", [], [1], false, [("w", Ratio.perRow [100000000 / 100000001])], ["w"]⟩,
        [⟨"w", [[1]], false⟩], ⟨0, 1⟩) := by
    norm_num [zoForwardZO, dizoInit, tsOf, l2norm, sumSq, tSub, tAdd, tMap2, List.zipWith,
      List.zip, perturbGammaFresh, perturbGammaCached, gammaAdapt, clipQ, applyConstraints,
      applyGo, reverseConstraints, revGo, projectRatio, rowL1s, ratioMul, ratioDivApp,
      (by decide : strContains "mars" "l2" = false), gaussSample, mkGen, epsC, List.lookup,
      min_def, max_def, Nat.sqrt]
  refine ⟨by simp [tsOf, List.zip], hrun, ?_⟩
  exact radius_bounding ⟨"mars", [], [1], false, [], []⟩ [⟨"w", [[1]], true⟩]
    [⟨"w", [[0]], true⟩] (fun _ => 0) (mkGen 0) _ _ _ (by simp [tsOf, List.zip]) hrun

/-! ## Radius lifecycle -/

theorem zipWith_fst : ∀ (ts cs : List ℚ),
    List.zipWith (fun t _ => t) ts cs = ts.take cs.length := by
  intro ts
  induction ts with
  | nil => intro cs; simp
  | cons t ts ih =>
    intro cs
    cases cs with
    | nil => simp
    | cons c cs => simp [List.zipWith, ih]

/-- With the `init` flag set, the whole `zo_forward` call is determined
by the parameter norms: the incoming radii matter only through their
count, because the init branch overwrites them. -/
theorem zoForwardZO_init_congr (d : DiZOState) (c1 c2 : List ℚ)
    (hlen : c1.length = c2.length) (m a : Model) (L : Model → ℚ) (g : Gen) :
    zoForwardZO { d with constraints := c1, init := true } m a L g =
    zoForwardZO { d with constraints := c2, init := true } m a L g := by
  simp only [zoForwardZO, dizoInit, zipWith_fst, if_pos]
  rw [hlen]

/-- C8 amended, part of the lifecycle: behaviour of the init flag and of
the inner loop. Conjunct 1: a `dizo_zo_iters` invocation with at least
one inner iteration gives the same result whatever radii and init flag it
starts from (same count), because it resets `init = True` and the first
iteration overwrites each radius with the `torch.norm` (plain L2) value;
conjunct 2: the init branch overwrites the radii with the `ts` prefix;
conjunct 3: with `init` clear the radii are refined, not overwritten;
conjunct 4: the loop clears `init` after the first iteration, so later
iterations of the same invocation refine. -/
theorem radius_lifecycle (L : Nat → Model → ℚ) (mi : Nat) (d : DiZOState)
    (c1 c2 : List ℚ) (b1 b2 : Bool) (m anchorM : Model) (g : Gen)
    (hmi : 1 ≤ mi) (hlen : c1.length = c2.length) :
    (dizoZoIters L mi { d with constraints := c1, init := b1 } m anchorM g =
     dizoZoIters L mi { d with constraints := c2, init := b2 } m anchorM g) ∧
    (∀ (d0 : DiZOState) (ts : List ℚ), d0.init = true →
      (dizoInit d0 ts).constraints = ts.take d0.constraints.length) ∧
    (∀ (d0 : DiZOState) (ts : List ℚ), d0.init = false → dizoInit d0 ts = d0) ∧
    (∀ (k i : Nat) (d0 : DiZOState) (m0 a0 : Model) (g0 : Gen)
       (res : DiZOState × Model × Gen),
      dizoLoop L (k + 1) i d0 m0 a0 g0 = some res → res.1.init = false) := by
  refine ⟨?_, ?_, ?_, ?_⟩
  · obtain ⟨k, rfl⟩ : ∃ k, mi = k + 1 := ⟨mi - 1, by omega⟩
    simp only [dizoZoIters, dizoLoop]
    rw [zoForwardZO_init_congr d c1 c2 hlen m anchorM (L 0) g]
  · intro d0 ts h
    simp [dizoInit, h, zipWith_fst]
  · intro d0 ts h
    simp [dizoInit, h]
  · intro k
    induction k with
    | zero =>
      intro i d0 m0 a0 g0 res h
      simp only [dizoLoop] at h
      split at h
      · exact absurd h (by simp)
      · simp only [dizoLoop, Option.some.injEq] at h
        rw [← h]
    | succ k ih =>
      intro i d0 m0 a0 g0 res h
      rw [show k + 1 + 1 = (k + 1) + 1 from rfl] at h
      simp only [dizoLoop] at h
      split at h
      · exact absurd h (by simp)
      · exact ih (i + 1) _ _ _ _ res h

/-- C8 counterexample: a MARS-mode (`l1`-like) DiZO whose radius was
already touched (init flag clear, radius refined to `42`) is run through
one `dizo_zo_iters` invocation with a constant loss. The radius comes
out as `5` — the plain L2 norm of the deviation `[3,4]` — not the
configured-mode L1 norm `7`, and not any refinement of the persisted
`42`: the invocation reset the init flag and re-initialized the radius. -/
theorem radius_lifecycle_cex :
    dizoZoIters (fun _ _ => 0) 1 ⟨"mars", [], [42], false, [], []⟩
        [⟨"w", [[3, 4]], true⟩] [⟨"w", [[0, 0]], true⟩] (mkGen 0) =
      some (⟨"mars", [], [5], false, [("w", Ratio.perRow [500000000 / 700000001])], ["w"]⟩,
        [⟨"w", [[1500000000 / 700000001, 2000000000 / 700000001]], false⟩], ⟨0, 1⟩) ∧
    (5 : ℚ) ≠ 7 ∧ (5 : ℚ) ≠ 42 := by
  refine ⟨?_, by norm_num, by norm_num⟩
  norm_num [dizoZoIters, dizoLoop, zoForwardApply, zoForwardZO, dizoInit, tsOf, l2norm,
    sumSq, tSub, tAdd, tMap2, List.zipWith, List.zip, perturbGammaFresh, perturbGammaCached,
    gammaAdapt, clipQ, applyConstraints, applyGo, reverseConstraints, revGo, projectRatio,
    rowL1s, ratioMul, ratioDivApp, (by decide : strContains "mars" "l2" = false),
    gaussSample, mkGen, epsC, List.lookup, min_def, max_def, Nat.sqrt]

/-- Witness for the amended C8 at a concrete invocation. -/
theorem radius_lifecycle_witness :
    1 ≤ 1 ∧ ([42] : List ℚ).length = ([7] : List ℚ).length ∧
    ((dizoZoIters (fun _ _ => 0) 1
        { (⟨"mars", [], [0], true, [], []⟩ : DiZOState) with constraints := [42], init := false }
        [⟨"w", [[3, 4]], true⟩] [⟨"w", [[0, 0]], true⟩] (mkGen 0) =
      dizoZoIters (fun _ _ => 0) 1
        { (⟨"mars", [], [0], true, [], []⟩ : DiZOState) with constraints := [7], init := true }
        [⟨"w", [[3, 4]], true⟩] [⟨"w", [[0, 0]], true⟩] (mkGen 0)) ∧
     (∀ (d0 : DiZOState) (ts : List ℚ), d0.init = true →
        (dizoInit d0 ts).constraints = ts.take d0.constraints.length) ∧
     (∀ (d0 : DiZOState) (ts : List ℚ), d0.init = false → dizoInit d0 ts = d0) ∧
     (∀ (k i : Nat) (d0 : DiZOState) (m0 a0 : Model) (g0 : Gen)
        (res : DiZOState × Model × Gen),
       dizoLoop (fun _ _ => 0) (k + 1) i d0 m0 a0 g0 = some res → res.1.init = false)) :=
  ⟨by decide, rfl, radius_lifecycle (fun _ _ => 0) 1 ⟨"mars", [], [0], true, [], []⟩
      [42] [7] false true [⟨"w", [[3, 4]], true⟩] [⟨"w", [[0, 0]], true⟩] (mkGen 0)
      (by decide) rfl⟩

end ZOTrainer
